import Mathlib

/-!
# Verification of the cli-suite argument tokenizer and dispatch engine

Shallow embedding of `src/lib/input/parser.ts` (classes `Parser` and
`Program`) and of `runValidators` from `src/lib/utils.ts`.

Modelling conventions:
* JavaScript strings are modelled as Lean `String` (sequences of unicode
  scalar values); `s.length`, `s.slice`, `s.startsWith` become operations
  on `s.data`.
* A JavaScript object used as a string-keyed record, and a JavaScript
  `Map`, are both modelled as association lists without duplicate keys:
  assignment to an existing key replaces the value in place, assignment
  to a fresh key appends.  Iteration order is list order, matching
  JavaScript insertion order for string keys.
* Object identity of an `ArgOptions` declaration (used by
  `processedOptions.includes`) is modelled by a numeric `id` field: two
  fields with the same `id` stand for the same JavaScript object.
* An asynchronous validator result is modelled as `Except String Bool`:
  `.ok b` is a resolved boolean, `.error e` a rejected promise (or a
  synchronous throw) with surfaced failure `e`.  Actions are side
  effects; they are modelled by logs of invocations (`optLog`, `cmdLog`)
  recorded by the dispatcher.
-/

/-- The three value shapes a parsed option can carry
(`string | string[] | boolean` in the source). -/
inductive Value where
  | bool (b : Bool)
  | str (s : String)
  | strs (l : List String)
deriving DecidableEq

/-- Result of `Parser.getResult()`. -/
structure ParserResult where
  options : List (String × Value)
  commands : List String
  errors : List String
deriving DecidableEq

/-- JavaScript `Map.set` / object assignment on an association list:
replace in place if the key exists, else append. -/
def mapSet {α : Type} : List (String × α) → String → α → List (String × α)
  | [], k, v => [(k, v)]
  | (k', v') :: rest, k, v =>
    if k' = k then (k, v) :: rest else (k', v') :: mapSet rest k v

/-- JavaScript `Map.get` / property read. -/
def mapGet {α : Type} : List (String × α) → String → Option α
  | [], _ => none
  | (k', v') :: rest, k => if k' = k then some v' else mapGet rest k

/-- JavaScript `Object.prototype.hasOwnProperty`. -/
def hasKey {α : Type} (m : List (String × α)) (k : String) : Bool :=
  (mapGet m k).isSome

/-- JavaScript `Map.values()` (in key-insertion order). -/
def mapValues {α : Type} (m : List (String × α)) : List α :=
  m.map (fun e => e.2)

/-- `pre.isPrefixOf s` on character lists. -/
def charsPrefix : List Char → List Char → Bool
  | [], _ => true
  | _ :: _, [] => false
  | p :: ps, c :: cs => p == c && charsPrefix ps cs

/-- JavaScript `s.startsWith(pre)`. -/
def strStartsWith (s pre : String) : Bool :=
  charsPrefix pre.data s.data

/-- JavaScript `s.slice(n)` for a nonnegative `n`. -/
def strDrop (s : String) (n : Nat) : String :=
  ⟨s.data.drop n⟩

/-- JavaScript `s.length` (modulo the UTF-16 caveat noted above). -/
def strLen (s : String) : Nat :=
  s.data.length

/-- Case-insensitive alphanumeric, i.e. one character of `[a-z0-9]/i`. -/
def isAlnumChar (c : Char) : Bool :=
  (Char.ofNat 97 ≤ c && c ≤ Char.ofNat 122) ||
  (Char.ofNat 65 ≤ c && c ≤ Char.ofNat 90) ||
  (Char.ofNat 48 ≤ c && c ≤ Char.ofNat 57)

/-- One character of `[a-z0-9-_]/i`. -/
def isNameChar (c : Char) : Bool :=
  isAlnumChar c || c == Char.ofNat 45 || c == Char.ofNat 95

namespace Parser

/-- `Parser.isValidName`: the anchored regular expression
`^[a-z0-9][a-z0-9-_]*$/i`. -/
def isValidName (s : String) : Bool :=
  match s.data with
  | [] => false
  | c :: cs => isAlnumChar c && cs.all isNameChar

/-- A token that does not start with `-` (may be greedily collected as an
option value, or is a positional command before the option phase). -/
def nonDash (a : String) : Bool :=
  !(strStartsWith a "-")

/-- Zero collected values give `true`, one gives the string, two or more
give the ordered sequence (the common tail of `parseLongArg` /
`parseShortArg`). -/
def valueOf : List String → Value
  | [] => Value.bool true
  | [v] => Value.str v
  | v₁ :: v₂ :: vs => Value.strs (v₁ :: v₂ :: vs)

/-- `Parser.parseLongArg`.  Takes the argument token and the following
tokens, returns the updated option record together with the number of
following tokens consumed as values (the source's `nextIndex - 1 -
currentIndex`). -/
def parseLongArg (arg : String) (rest : List String)
    (opts : List (String × Value)) : List (String × Value) × Nat :=
  let argBody := strDrop arg 2
  if argBody.data.contains '=' then
    let key : String := ⟨argBody.data.takeWhile (fun c => c != '=')⟩
    let value : String := ⟨(argBody.data.dropWhile (fun c => c != '=')).drop 1⟩
    (mapSet opts key (Value.str value), 0)
  else
    let values := rest.takeWhile nonDash
    (mapSet opts argBody (valueOf values), values.length)

/-- `Parser.parseShortArg`, with the same convention as `parseLongArg`. -/
def parseShortArg (arg : String) (rest : List String)
    (opts : List (String × Value)) : List (String × Value) × Nat :=
  let flags := (strDrop arg 1).data
  if flags.length > 1 then
    let opts := (flags.take (flags.length - 1)).foldl
      (fun acc c => mapSet acc ⟨[c]⟩ (Value.bool true)) opts
    let lastFlag : String := ⟨flags.drop (flags.length - 1)⟩
    let values := rest.takeWhile nonDash
    (mapSet opts lastFlag (valueOf values), values.length)
  else
    let flag : String := ⟨flags⟩
    let values := rest.takeWhile nonDash
    (mapSet opts flag (valueOf values), values.length)

/-- The option-phase loop of `Parser.parse`.  The `skip` argument counts
tokens already consumed as greedy values by the previous option (the
source advances its index `i` past them). -/
def parseRest : List String → Nat → List (String × Value) → List String →
    List (String × Value) × List String
  | [], _, opts, errs => (opts, errs)
  | _ :: rest, skip + 1, opts, errs => parseRest rest skip opts errs
  | t :: rest, 0, opts, errs =>
    if strStartsWith t "--" then
      let key : String := ⟨(strDrop t 2).data.takeWhile (fun c => c != '=')⟩
      if strLen key > 1 && isValidName key then
        let r := parseLongArg t rest opts
        parseRest rest r.2 r.1 errs
      else
        parseRest rest 0 opts (errs ++ [t])
    else if strStartsWith t "-" then
      if strLen t > 1 && isValidName (strDrop t 1) then
        let r := parseShortArg t rest opts
        parseRest rest r.2 r.1 errs
      else
        parseRest rest 0 opts (errs ++ [t])
    else
      parseRest rest 0 opts (errs ++ [t])

/-- `Parser.parse` followed by `getResult()`: the command phase collects
leading non-dash tokens, the option phase processes the remainder. -/
def parse (args : List String) : ParserResult :=
  let commands := args.takeWhile nonDash
  let rest := args.dropWhile nonDash
  let r := parseRest rest 0 [] []
  { options := r.1, commands := commands, errors := r.2 }

end Parser

/-- Input accepted by a validator: `string | string[]` in the source. -/
inductive ValidatorInput where
  | str (s : String)
  | list (l : List String)

/-- The external validation contract (`types/validator.ts`): `validate`
returns a boolean or a deferred boolean; a rejection (or synchronous
throw) is the `.error` case. -/
structure Validator where
  validate : ValidatorInput → Except String Bool
  message : String

/-- `runValidators` from `src/lib/utils.ts`: awaits each validator in
order and collects the message of each falsy result, but only when the
message itself is truthy (non-empty).  A rejection propagates. -/
def runValidators (input : ValidatorInput) : List Validator → Except String (List String)
  | [] => Except.ok []
  | v :: rest =>
    match v.validate input with
    | Except.error e => Except.error e
    | Except.ok isValid =>
      match runValidators input rest with
      | Except.error e => Except.error e
      | Except.ok errs =>
        Except.ok ((if !isValid && v.message != "" then [v.message] else []) ++ errs)

/-- An option declaration (`ArgOptions` in `types/program.ts`).  `id`
models the object identity of the declaration; the action callback is
modelled by the dispatcher's invocation log. -/
structure ArgOptions where
  id : Nat
  short : Option String := none
  long : Option String := none
  validators : Option (List Validator) := none
  defaultValue : Option String := none

/-- A command declaration (`CommandOptions` in `types/program.ts`). -/
structure CommandOptions where
  name : String

/-- JavaScript truthiness of an optional string field (`undefined` and
`''` are falsy). -/
def truthy : Option String → Bool
  | none => false
  | some s => s != ""

/-- The boolean-to-empty-string coercion applied before validation:
`typeof value === 'boolean' ? '' : value`. -/
def coerceValue : Value → ValidatorInput
  | Value.bool _ => ValidatorInput.str ""
  | Value.str s => ValidatorInput.str s
  | Value.strs l => ValidatorInput.list l

/-- The observable state of a `Program` instance during one `parse`
call: the three error collections plus the logs of invoked command and
option actions (`cmdLog` entries are (command name, positional tail);
`optLog` entries are (declaration id, value passed)).  `validated`
records the ids of options whose validators were run. -/
structure DispatchState where
  parsingErrors : List String := []
  unexpectedErrors : List String := []
  validationErrors : List (String × String) := []
  cmdLog : List (String × List String) := []
  optLog : List (Nat × Value) := []
  validated : List Nat := []

/-- How the option-processing loop of `Program.parse` ended: ran through
all entries, `break` on a validation failure, or an uncaught validator
rejection. -/
inductive LoopExit where
  | done
  | broke
  | threw (e : String)

/-- A `Program` instance: its two registries. -/
structure Program where
  options : List (String × ArgOptions) := []
  commands : List (String × CommandOptions) := []

/-- `Program.option`: registers a declaration under its truthy short
and/or long key.  Total - registration never raises. -/
def Program.option (reg : List (String × ArgOptions)) (o : ArgOptions) :
    List (String × ArgOptions) :=
  let reg1 := if truthy o.short then mapSet reg (o.short.getD "") o else reg
  if truthy o.long then mapSet reg1 (o.long.getD "") o else reg1

/-- `Program.command`: registers a command declaration under its name. -/
def Program.register (reg : List (String × CommandOptions)) (c : CommandOptions) :
    List (String × CommandOptions) :=
  mapSet reg c.name c

/-- Steps 1-2 of `Program.parse`: record the parser's errors, then look
up the first command; an unknown (or absent) first command appends the
space-joined command list to `unexpectedErrors`, a known one has its
action invoked with the remaining commands. -/
def stepTwo (p : Program) (tok : ParserResult) : DispatchState :=
  let st : DispatchState := {}
  let st := { st with parsingErrors := st.parsingErrors ++ tok.errors }
  match tok.commands with
  | [] =>
    { st with unexpectedErrors :=
        st.unexpectedErrors ++ [String.intercalate " " tok.commands] }
  | c0 :: restC =>
    match mapGet p.commands c0 with
    | none =>
      { st with unexpectedErrors :=
          st.unexpectedErrors ++ [String.intercalate " " tok.commands] }
    | some cmd =>
      { st with cmdLog := st.cmdLog ++ [(cmd.name, restC)] }

/-- Step 3 of `Program.parse`: the loop over the parsed option entries.
Unknown keys are recorded and skipped; a declaration already processed
(matched earlier under its other name) is skipped; otherwise its
validators (if any) run on the coerced value - a rejection escapes the
loop (`LoopExit.threw`), a non-empty message list is stored under the
key and stops the loop (`LoopExit.broke`, the source's `break`), and
otherwise the action is invoked with the value as-is. -/
def processOptions (reg : List (String × ArgOptions)) :
    List (String × Value) → List Nat → DispatchState →
    DispatchState × List Nat × LoopExit
  | [], processed, st => (st, processed, LoopExit.done)
  | (key, value) :: rest, processed, st =>
    match mapGet reg key with
    | none =>
      processOptions reg rest processed
        { st with unexpectedErrors := st.unexpectedErrors ++ [key] }
    | some o =>
      if o.id ∈ processed then
        processOptions reg rest processed st
      else
        match o.validators with
        | some vs =>
          match runValidators (coerceValue value) vs with
          | Except.error e => (st, processed ++ [o.id], LoopExit.threw e)
          | Except.ok errs =>
            if errs.length > 0 then
              ({ st with
                  validationErrors :=
                    mapSet st.validationErrors key (String.intercalate "\n" errs),
                  validated := st.validated ++ [o.id] },
               processed ++ [o.id], LoopExit.broke)
            else
              processOptions reg rest (processed ++ [o.id])
                { st with validated := st.validated ++ [o.id],
                          optLog := st.optLog ++ [(o.id, value)] }
        | none =>
          processOptions reg rest (processed ++ [o.id])
            { st with optLog := st.optLog ++ [(o.id, value)] }

/-- Step 4 of `Program.parse`: for every registry value not yet
processed whose truthy keys are both absent from the parsed options and
which declares a default value, invoke its action with the default. -/
def applyDefaults (opts : List (String × Value)) :
    List ArgOptions → List Nat → DispatchState → DispatchState × List Nat
  | [], processed, st => (st, processed)
  | o :: rest, processed, st =>
    let hasShort := truthy o.short && hasKey opts (o.short.getD "")
    let hasLong := truthy o.long && hasKey opts (o.long.getD "")
    if !hasShort && !hasLong && o.defaultValue.isSome then
      if o.id ∈ processed then
        applyDefaults opts rest processed st
      else
        applyDefaults opts rest (processed ++ [o.id])
          { st with optLog := st.optLog ++ [(o.id, Value.str (o.defaultValue.getD ""))] }
    else
      applyDefaults opts rest processed st

/-- The value returned by `Program.parse` (resolved boolean or
propagated rejection) together with the instance state it leaves
behind. -/
structure ParseOutcome where
  state : DispatchState
  result : Except String Bool

/-- `Program.parse`: steps 1-2, the option loop, and - unless the loop
threw - the default pass and the final boolean (whether
`validationErrors` is non-empty).  A rejection skips step 4 and
surfaces as the error. -/
def Program.parse (p : Program) (tok : ParserResult) : ParseOutcome :=
  match processOptions p.options tok.options [] (stepTwo p tok) with
  | (st, _, LoopExit.threw e) => { state := st, result := Except.error e }
  | (st, processed, LoopExit.done) =>
    let st' := (applyDefaults tok.options (mapValues p.options) processed st).1
    { state := st', result := Except.ok (st'.validationErrors.length != 0) }
  | (st, processed, LoopExit.broke) =>
    let st' := (applyDefaults tok.options (mapValues p.options) processed st).1
    { state := st', result := Except.ok (st'.validationErrors.length != 0) }

/-- The shape invariant claimed for stored option values: boolean `true`
(zero values), a single string, or a sequence of two or more strings. -/
def goodValue : Value → Prop
  | Value.bool b => b = true
  | Value.str _ => True
  | Value.strs l => 2 ≤ l.length

/-- A token of the kinds the spec calls malformed: `--`, `-`, `---x`, or
a dash-prefixed token whose key portion fails the name grammar. -/
def claimMalformed (t : String) : Bool :=
  t == "--" || t == "-" || t == "---x" ||
  (strStartsWith t "--" &&
    !(Parser.isValidName ⟨(strDrop t 2).data.takeWhile (fun c => c != '=')⟩)) ||
  (strStartsWith t "-" && !(strStartsWith t "--") &&
    !(Parser.isValidName (strDrop t 1)))

/-- A dash-prefixed token that the option phase routes to `errors`
(exactly the error conditions of `Parser.parse`). -/
def malformedDash (t : String) : Bool :=
  strStartsWith t "-" &&
  (if strStartsWith t "--" then
    !(strLen (⟨(strDrop t 2).data.takeWhile (fun c => c != '=')⟩ : String) > 1 &&
      Parser.isValidName ⟨(strDrop t 2).data.takeWhile (fun c => c != '=')⟩)
   else
    !(strLen t > 1 && Parser.isValidName (strDrop t 1)))

/-- The sublist of action invocations in a log that belong to the
declaration with identity `i`. -/
def logFor (log : List (Nat × Value)) (i : Nat) : List (Nat × Value) :=
  log.filter (fun e => e.1 == i)

/-- Well-formedness of an option registry: every entry's key is one of
its declaration's truthy names.  This holds for every registry built by
`Program.option` calls. -/
def RegWF (reg : List (String × ArgOptions)) : Prop :=
  ∀ e ∈ reg, (truthy e.2.short = true ∧ e.2.short.getD "" = e.1) ∨
             (truthy e.2.long = true ∧ e.2.long.getD "" = e.1)

/-- Faithfulness of the `id` field as object identity, restricted to the
observable fields the dispatcher reads: two registry entries carrying
the same id agree on the keys and the default value. -/
def IdKeys (reg : List (String × ArgOptions)) : Prop :=
  ∀ e1 ∈ reg, ∀ e2 ∈ reg, e1.2.id = e2.2.id →
    e1.2.short = e2.2.short ∧ e1.2.long = e2.2.long ∧
    e1.2.defaultValue = e2.2.defaultValue

/-- Neither the short nor the long key of `o` is present in the parsed
options (the negations of the source's `hasShort` / `hasLong`). -/
def bothAbsent (o : ArgOptions) (opts : List (String × Value)) : Prop :=
  (truthy o.short && hasKey opts (o.short.getD "")) = false ∧
  (truthy o.long && hasKey opts (o.long.getD "")) = false

-- ### Concrete fixtures used by counterexamples and witnesses

/-- A validator whose evaluate is falsy but whose message is empty. -/
def valFalsyEmpty : Validator :=
  { validate := fun _ => Except.ok false, message := "" }

/-- A validator whose evaluate rejects. -/
def valReject : Validator :=
  { validate := fun _ => Except.error "boom", message := "m" }

/-- A validator that always fails with a non-empty message. -/
def valFailing : Validator :=
  { validate := fun _ => Except.ok false, message := "bad" }

/-- A validator that always passes. -/
def valPassing : Validator :=
  { validate := fun _ => Except.ok true, message := "never" }

/-- Option `x`: a falsy validator with an empty message. -/
def optX : ArgOptions :=
  { id := 0, short := some "x", validators := some [valFalsyEmpty] }

/-- Option `y`: no validators. -/
def optY : ArgOptions :=
  { id := 1, short := some "y" }

/-- Option `z`: a rejecting validator. -/
def optZ : ArgOptions :=
  { id := 2, short := some "z", validators := some [valReject] }

/-- Option `f`: a failing validator with message `bad`. -/
def optF : ArgOptions :=
  { id := 3, short := some "f", validators := some [valFailing] }

/-- Option `b`/`bb`: dual-keyed, with a default value. -/
def optB : ArgOptions :=
  { id := 4, short := some "b", long := some "bb", defaultValue := some "5" }

/-- Option `t`/`timeout`: dual-keyed, with a validator that passes. -/
def optT : ArgOptions :=
  { id := 5, short := some "t", long := some "timeout",
    validators := some [valPassing], defaultValue := some "60" }

/-- Registry with `x` then `y` (claim C1). -/
def progC1 : Program :=
  { options := [("x", optX), ("y", optY)] }

/-- Tokenize result supplying `x` then `y` (claim C1). -/
def tokC1 : ParserResult :=
  { options := [("x", Value.bool true), ("y", Value.str "v")],
    commands := [], errors := [] }

/-- Registry with the rejecting option `z` (claim C2). -/
def progC2 : Program :=
  { options := [("z", optZ)] }

/-- Tokenize result supplying `z` (claim C2). -/
def tokC2 : ParserResult :=
  { options := [("z", Value.str "w")], commands := [], errors := [] }

/-- Registry with the failing option `f` and the defaulted dual-keyed
option `b`/`bb` (claims C3, C5). -/
def progC3 : Program :=
  { options := Program.option (Program.option [] optF) optB }

/-- Tokenize result supplying only `f` (claims C3, C5). -/
def tokC3 : ParserResult :=
  { options := [("f", Value.str "oops")], commands := [], errors := [] }

/-- Registry with the dual-keyed option `t`/`timeout` (claim C4). -/
def progC4 : Program :=
  { options := Program.option [] optT }

/-- Tokenize result supplying both spellings of `t`/`timeout` (claim C4). -/
def tokC4 : ParserResult :=
  { options := [("t", Value.str "10"), ("timeout", Value.str "20")],
    commands := [], errors := [] }

/-- Earlier dual-keyed registration, collided on its short key by
`optY2` (claim C9). -/
def optX9 : ArgOptions :=
  { id := 6, short := some "s", long := some "l" }

/-- Later registration whose short key collides with `optX9` (claim C9). -/
def optY9 : ArgOptions :=
  { id := 7, short := some "s", long := some "m" }

/-- Registry after registering `optX9` (claim C9). -/
def regC9 : List (String × ArgOptions) :=
  Program.option [] optX9

/-- Tokenize result with no commands at all (claim C10). -/
def tokC10 : ParserResult :=
  { options := [], commands := [], errors := [] }

-- ### Association-list lemmas

theorem mapGet_mapSet_self {α : Type} (m : List (String × α)) (k : String) (v : α) :
    mapGet (mapSet m k v) k = some v := by
  induction m with
  | nil => simp [mapSet, mapGet]
  | cons e rest ih =>
    obtain ⟨k₀, v₀⟩ := e
    by_cases h : k₀ = k
    · simp [mapSet, h, mapGet]
    · simp [mapSet, h, mapGet, ih]

theorem mapGet_mapSet_ne {α : Type} (m : List (String × α)) (k k' : String) (v : α)
    (h : k' ≠ k) : mapGet (mapSet m k v) k' = mapGet m k' := by
  induction m with
  | nil => simp [mapSet, mapGet, Ne.symm h]
  | cons e rest ih =>
    obtain ⟨k₀, v₀⟩ := e
    by_cases h1 : k₀ = k
    · simp [mapSet, h1, mapGet, Ne.symm h]
    · by_cases h2 : k₀ = k'
      · simp [mapSet, h1, mapGet, h2, h]
      · simp [mapSet, h1, mapGet, h2, ih]

theorem mapSet_forall {α : Type} {P : String × α → Prop} {m : List (String × α)}
    {k : String} {v : α} (hm : ∀ e ∈ m, P e) (hv : P (k, v)) :
    ∀ e ∈ mapSet m k v, P e := by
  induction m with
  | nil =>
    intro x hx
    simp only [mapSet, List.mem_singleton] at hx
    exact hx ▸ hv
  | cons e rest ih =>
    obtain ⟨k₀, v₀⟩ := e
    by_cases h : k₀ = k
    · intro x hx
      simp only [mapSet] at hx
      rw [if_pos h] at hx
      rcases List.mem_cons.mp hx with rfl | hx
      · exact hv
      · exact hm x (List.mem_cons_of_mem _ hx)
    · intro x hx
      simp only [mapSet] at hx
      rw [if_neg h] at hx
      rcases List.mem_cons.mp hx with rfl | hx
      · exact hm _ (List.mem_cons_self _ _)
      · exact ih (fun y hy => hm y (List.mem_cons_of_mem _ hy)) x hx

theorem mem_of_mapGet {α : Type} {m : List (String × α)} {k : String} {v : α}
    (h : mapGet m k = some v) : (k, v) ∈ m := by
  induction m with
  | nil => simp [mapGet] at h
  | cons e rest ih =>
    obtain ⟨k₀, v₀⟩ := e
    by_cases h1 : k₀ = k
    · simp only [mapGet] at h
      rw [if_pos h1] at h
      injection h with h2
      subst h2
      subst h1
      exact List.mem_cons_self _ _
    · simp only [mapGet] at h
      rw [if_neg h1] at h
      exact List.mem_cons_of_mem _ (ih h)

theorem hasKey_of_mem {α : Type} {m : List (String × α)} {k : String} {v : α}
    (h : (k, v) ∈ m) : hasKey m k = true := by
  induction m with
  | nil => simp at h
  | cons e rest ih =>
    obtain ⟨k₀, v₀⟩ := e
    by_cases h1 : k₀ = k
    · simp [hasKey, mapGet, h1]
    · rcases List.mem_cons.mp h with he | he
      · injection he with ha hb
        exact absurd ha.symm h1
      · simpa [hasKey, mapGet, h1] using ih he

-- ### Tokenizer lemmas: value shapes (claim C6)

theorem valueOf_good : ∀ vs, goodValue (Parser.valueOf vs) := by
  intro vs
  match vs with
  | [] => simp [Parser.valueOf, goodValue]
  | [v] => simp [Parser.valueOf, goodValue]
  | v₁ :: v₂ :: rest =>
    simp only [Parser.valueOf, goodValue, List.length_cons]
    omega

theorem parseLongArg_good {arg : String} {rest : List String}
    {opts : List (String × Value)} (h : ∀ e ∈ opts, goodValue e.2) :
    ∀ e ∈ (Parser.parseLongArg arg rest opts).1, goodValue e.2 := by
  simp only [Parser.parseLongArg]
  split
  · exact mapSet_forall h trivial
  · exact mapSet_forall h (valueOf_good _)

theorem foldl_setTrue_good : ∀ (cs : List Char) (opts : List (String × Value)),
    (∀ e ∈ opts, goodValue e.2) →
    ∀ e ∈ cs.foldl (fun acc c => mapSet acc ⟨[c]⟩ (Value.bool true)) opts, goodValue e.2 := by
  intro cs
  induction cs with
  | nil => intro opts h; simpa using h
  | cons c rest ih =>
    intro opts h
    exact ih _ (mapSet_forall h rfl)

theorem parseShortArg_good {arg : String} {rest : List String}
    {opts : List (String × Value)} (h : ∀ e ∈ opts, goodValue e.2) :
    ∀ e ∈ (Parser.parseShortArg arg rest opts).1, goodValue e.2 := by
  simp only [Parser.parseShortArg]
  split
  · exact mapSet_forall (foldl_setTrue_good _ _ h) (valueOf_good _)
  · exact mapSet_forall h (valueOf_good _)

theorem parseRest_good : ∀ (l : List String) (skip : Nat)
    (opts : List (String × Value)) (errs : List String),
    (∀ e ∈ opts, goodValue e.2) →
    ∀ e ∈ (Parser.parseRest l skip opts errs).1, goodValue e.2 := by
  intro l
  induction l with
  | nil => intro skip opts errs h; simpa [Parser.parseRest] using h
  | cons t rest ih =>
    intro skip opts errs h
    cases skip with
    | succ n => simpa only [Parser.parseRest] using ih n opts errs h
    | zero =>
      simp only [Parser.parseRest]
      split
      · split
        · exact ih _ _ _ (parseLongArg_good h)
        · exact ih _ _ _ h
      · split
        · split
          · exact ih _ _ _ (parseShortArg_good h)
          · exact ih _ _ _ h
        · exact ih _ _ _ h

-- ### Tokenizer lemmas: malformed tokens (claim C7)

theorem charsPrefix_pair {a b : Char} {l : List Char} (h : charsPrefix [a, b] l = true) :
    charsPrefix [a] l = true := by
  cases l with
  | nil => simp [charsPrefix] at h
  | cons c cs =>
    simp only [charsPrefix, Bool.and_eq_true] at h ⊢
    exact ⟨h.1, trivial⟩

theorem startsWith_dash_of_dashdash (t : String) (h : strStartsWith t "--" = true) :
    strStartsWith t "-" = true :=
  charsPrefix_pair h

theorem claimMalformed_malformedDash {t : String} (h : claimMalformed t = true) :
    malformedDash t = true := by
  simp only [claimMalformed, Bool.or_eq_true, Bool.and_eq_true, beq_iff_eq,
    Bool.not_eq_true'] at h
  rcases h with ((((rfl | rfl) | rfl) | ⟨hdd, hkey⟩) | ⟨⟨hd, hndd⟩, hkey⟩)
  · decide
  · decide
  · decide
  · have hd : strStartsWith t "-" = true := startsWith_dash_of_dashdash t hdd
    simp [malformedDash, hd, hdd, hkey]
  · simp [malformedDash, hd, hndd, hkey]

theorem malformedDash_split {t : String} (h : malformedDash t = true) :
    strStartsWith t "-" = true ∧
    (if strStartsWith t "--" then
      !(strLen (⟨(strDrop t 2).data.takeWhile (fun c => c != '=')⟩ : String) > 1 &&
        Parser.isValidName ⟨(strDrop t 2).data.takeWhile (fun c => c != '=')⟩)
     else
      !(strLen t > 1 && Parser.isValidName (strDrop t 1))) = true :=
  Bool.and_eq_true _ _ ▸ h

theorem nonDash_of_malformed {t : String} (h : malformedDash t = true) :
    Parser.nonDash t = false := by
  simp [Parser.nonDash, (malformedDash_split h).1]

theorem parseRest_malformed_step {t : String} (hm : malformedDash t = true) :
    ∀ (rest : List String) (opts : List (String × Value)) (errs : List String),
    Parser.parseRest (t :: rest) 0 opts errs = Parser.parseRest rest 0 opts (errs ++ [t]) := by
  intro rest opts errs
  have hcond := (malformedDash_split hm).2
  simp only [Parser.parseRest]
  split
  · next h1 =>
    rw [if_pos h1] at hcond
    split
    · next h2 => simp [h2] at hcond
    · rfl
  · next h1 =>
    rw [if_neg h1] at hcond
    split
    · split
      · next h3 => simp [h3] at hcond
      · rfl
    · rfl

theorem parseRest_errors_mono : ∀ (l : List String) (skip : Nat)
    (opts : List (String × Value)) (errs : List String) (x : String),
    x ∈ errs → x ∈ (Parser.parseRest l skip opts errs).2 := by
  intro l
  induction l with
  | nil => intro skip opts errs x hx; simpa [Parser.parseRest] using hx
  | cons t rest ih =>
    intro skip opts errs x hx
    cases skip with
    | succ n => simpa only [Parser.parseRest] using ih n opts errs x hx
    | zero =>
      simp only [Parser.parseRest]
      split
      · split
        · exact ih _ _ _ x hx
        · exact ih _ _ _ x (List.mem_append_left _ hx)
      · split
        · split
          · exact ih _ _ _ x hx
          · exact ih _ _ _ x (List.mem_append_left _ hx)
        · exact ih _ _ _ x (List.mem_append_left _ hx)

theorem mem_takeWhile_sat {α : Type} (p : α → Bool) : ∀ (l : List α),
    ∀ x ∈ l.takeWhile p, p x = true := by
  intro l
  induction l with
  | nil => intro x hx; simp [List.takeWhile] at hx
  | cons h t ih =>
    intro x hx
    cases hp : p h
    · simp [List.takeWhile_cons, hp] at hx
    · rcases List.mem_cons.mp (by simpa [List.takeWhile_cons, hp] using hx) with rfl | hx'
      · exact hp
      · exact ih x hx'

theorem take_length_takeWhile {α : Type} (p : α → Bool) : ∀ (l : List α),
    l.take ((l.takeWhile p).length) = l.takeWhile p := by
  intro l
  induction l with
  | nil => simp
  | cons h t ih =>
    cases hp : p h
    · simp [List.takeWhile_cons, hp]
    · simp [List.takeWhile_cons, hp, List.take_succ_cons, ih]

theorem mem_dropWhile_of_neg {α : Type} (p : α → Bool) : ∀ (l : List α) (x : α),
    p x = false → x ∈ l → x ∈ l.dropWhile p := by
  intro l
  induction l with
  | nil => intro x _ hx; simp at hx
  | cons h t ih =>
    intro x hp hx
    cases hph : p h
    · simpa [List.dropWhile_cons, hph] using hx
    · rcases List.mem_cons.mp hx with rfl | hx'
      · rw [hph] at hp; cases hp
      · simpa [List.dropWhile_cons, hph] using ih x hp hx'

theorem parseLongArg_skip {arg : String} {rest : List String}
    {opts : List (String × Value)} :
    ∀ y ∈ rest.take (Parser.parseLongArg arg rest opts).2, Parser.nonDash y = true := by
  simp only [Parser.parseLongArg]
  split
  · simp
  · intro y hy
    rw [take_length_takeWhile] at hy
    exact mem_takeWhile_sat _ _ y hy

theorem parseShortArg_skip {arg : String} {rest : List String}
    {opts : List (String × Value)} :
    ∀ y ∈ rest.take (Parser.parseShortArg arg rest opts).2, Parser.nonDash y = true := by
  simp only [Parser.parseShortArg]
  split
  · intro y hy
    rw [take_length_takeWhile] at hy
    exact mem_takeWhile_sat _ _ y hy
  · intro y hy
    rw [take_length_takeWhile] at hy
    exact mem_takeWhile_sat _ _ y hy

theorem parseRest_malformed_mem {t : String} (hm : malformedDash t = true) :
    ∀ (l : List String) (skip : Nat) (opts : List (String × Value)) (errs : List String),
    (∀ y ∈ l.take skip, Parser.nonDash y = true) → t ∈ l →
    t ∈ (Parser.parseRest l skip opts errs).2 := by
  intro l
  induction l with
  | nil => intro skip opts errs _ ht; simp at ht
  | cons h0 rest ih =>
    intro skip opts errs htake ht
    cases skip with
    | succ n =>
      have hne : t ≠ h0 := by
        intro he
        have h1 := htake h0 (by rw [List.take_succ_cons]; exact List.mem_cons_self _ _)
        rw [← he, nonDash_of_malformed hm] at h1
        cases h1
      have ht' : t ∈ rest := (List.mem_cons.mp ht).resolve_left hne
      simp only [Parser.parseRest]
      exact ih n opts errs
        (fun y hy => htake y (by rw [List.take_succ_cons]; exact List.mem_cons_of_mem _ hy)) ht'
    | zero =>
      by_cases he : t = h0
      · subst he
        rw [parseRest_malformed_step hm]
        exact parseRest_errors_mono _ _ _ _ t
          (List.mem_append_right _ (List.mem_singleton.mpr rfl))
      · have ht' : t ∈ rest := (List.mem_cons.mp ht).resolve_left he
        simp only [Parser.parseRest]
        split
        · split
          · exact ih _ _ _ parseLongArg_skip ht'
          · exact ih 0 _ _ (by simp) ht'
        · split
          · split
            · exact ih _ _ _ parseShortArg_skip ht'
            · exact ih 0 _ _ (by simp) ht'
          · exact ih 0 _ _ (by simp) ht'

-- ### Dispatcher lemmas: preserved state components

theorem stepTwo_optLog (p : Program) (tok : ParserResult) :
    (stepTwo p tok).optLog = [] := by
  rcases htc : tok.commands with _ | ⟨c0, restC⟩
  · simp [stepTwo, htc]
  · rcases hg : mapGet p.commands c0 with _ | cmd <;> simp [stepTwo, htc, hg]

theorem stepTwo_validated (p : Program) (tok : ParserResult) :
    (stepTwo p tok).validated = [] := by
  rcases htc : tok.commands with _ | ⟨c0, restC⟩
  · simp [stepTwo, htc]
  · rcases hg : mapGet p.commands c0 with _ | cmd <;> simp [stepTwo, htc, hg]

theorem stepTwo_of_nil (p : Program) (tok : ParserResult) (h : tok.commands = []) :
    (stepTwo p tok).unexpectedErrors = [""] ∧ (stepTwo p tok).cmdLog = [] := by
  simp [stepTwo, h]
  rfl

theorem processOptions_cmdLog (reg : List (String × ArgOptions)) :
    ∀ (entries : List (String × Value)) (processed : List Nat) (st : DispatchState),
    (processOptions reg entries processed st).1.cmdLog = st.cmdLog := by
  intro entries
  induction entries with
  | nil => intro processed st; rfl
  | cons e rest ih =>
    intro processed st
    obtain ⟨key, value⟩ := e
    simp only [processOptions]
    rcases hg : mapGet reg key with _ | o
    · simp [ih]
    · simp only []
      split
      · exact ih _ _
      · rcases hv : o.validators with _ | vs
        · simp [ih]
        · rcases hr : runValidators (coerceValue value) vs with e | errs
          · simp [hr]
          · simp only [hr]
            split
            · rfl
            · exact ih _ _

theorem processOptions_unexpected_mono (reg : List (String × ArgOptions)) :
    ∀ (entries : List (String × Value)) (processed : List Nat) (st : DispatchState),
    ∃ ex, (processOptions reg entries processed st).1.unexpectedErrors =
      st.unexpectedErrors ++ ex := by
  intro entries
  induction entries with
  | nil => intro processed st; exact ⟨[], by simp [processOptions]⟩
  | cons e rest ih =>
    intro processed st
    obtain ⟨key, value⟩ := e
    simp only [processOptions]
    rcases hg : mapGet reg key with _ | o
    · obtain ⟨ex, hex⟩ := ih processed { st with unexpectedErrors := st.unexpectedErrors ++ [key] }
      exact ⟨[key] ++ ex, by simp [hex]⟩
    · simp only []
      split
      · exact ih _ _
      · rcases hv : o.validators with _ | vs
        · exact ih _ _
        · rcases hr : runValidators (coerceValue value) vs with e | errs
          · exact ⟨[], by simp [hr]⟩
          · simp only [hr]
            split
            · exact ⟨[], by simp⟩
            · exact ih _ _

theorem applyDefaults_preserves (opts : List (String × Value)) :
    ∀ (regVals : List ArgOptions) (processed : List Nat) (st : DispatchState),
    (applyDefaults opts regVals processed st).1.cmdLog = st.cmdLog ∧
    (applyDefaults opts regVals processed st).1.unexpectedErrors = st.unexpectedErrors ∧
    (applyDefaults opts regVals processed st).1.validated = st.validated ∧
    (applyDefaults opts regVals processed st).1.validationErrors = st.validationErrors := by
  intro regVals
  induction regVals with
  | nil => intro processed st; exact ⟨rfl, rfl, rfl, rfl⟩
  | cons o rest ih =>
    intro processed st
    simp only [applyDefaults]
    split
    · split
      · exact ih _ _
      · exact ih _ _
    · exact ih _ _

-- ### Dispatcher lemmas: at-most-once invocation (claim C4)

theorem logFor_append (l1 l2 : List (Nat × Value)) (i : Nat) :
    logFor (l1 ++ l2) i = logFor l1 i ++ logFor l2 i := by
  simp [logFor]

theorem logFor_single_self (i : Nat) (v : Value) : logFor [(i, v)] i = [(i, v)] := by
  simp [logFor]

theorem logFor_single_ne {j i : Nat} (h : j ≠ i) (v : Value) : logFor [(j, v)] i = [] := by
  simp [logFor, h]

theorem logFor_push_bound (log : List (Nat × Value)) (processed : List Nat)
    (j i : Nat) (v : Value) (hnmem : j ∉ processed)
    (h1 : i ∉ processed → logFor log i = []) (h2 : (logFor log i).length ≤ 1) :
    (i ∉ processed ++ [j] → logFor (log ++ [(j, v)]) i = []) ∧
    (logFor (log ++ [(j, v)]) i).length ≤ 1 := by
  constructor
  · intro hni
    have hni1 : i ∉ processed := fun hh => hni (List.mem_append_left _ hh)
    have hne : j ≠ i := fun he => hni (List.mem_append_right _ (by simp [he]))
    rw [logFor_append, h1 hni1, logFor_single_ne hne]
    rfl
  · by_cases hij : j = i
    · subst hij
      rw [logFor_append, h1 hnmem, logFor_single_self]
      simp
    · rw [logFor_append, logFor_single_ne hij]
      simpa using h2

theorem processOptions_logFor_bound (reg : List (String × ArgOptions)) (i : Nat) :
    ∀ (entries : List (String × Value)) (processed : List Nat) (st : DispatchState),
    (i ∉ processed → logFor st.optLog i = []) →
    (logFor st.optLog i).length ≤ 1 →
    ((i ∉ (processOptions reg entries processed st).2.1 →
        logFor (processOptions reg entries processed st).1.optLog i = []) ∧
      (logFor (processOptions reg entries processed st).1.optLog i).length ≤ 1) := by
  intro entries
  induction entries with
  | nil => intro processed st h1 h2; exact ⟨h1, h2⟩
  | cons e rest ih =>
    intro processed st h1 h2
    obtain ⟨key, value⟩ := e
    simp only [processOptions]
    rcases hg : mapGet reg key with _ | o
    · exact ih _ _ h1 h2
    · simp only []
      split
      · exact ih _ _ h1 h2
      · next hnmem =>
        rcases hv : o.validators with _ | vs
        · have hb := logFor_push_bound st.optLog processed o.id i value hnmem h1 h2
          exact ih _ _ hb.1 hb.2
        · rcases hr : runValidators (coerceValue value) vs with e | errs
          · simp only [hr]
            constructor
            · intro hni
              exact h1 (fun hh => hni (List.mem_append_left _ hh))
            · exact h2
          · simp only [hr]
            split
            · constructor
              · intro hni
                exact h1 (fun hh => hni (List.mem_append_left _ hh))
              · exact h2
            · have hb := logFor_push_bound st.optLog processed o.id i value hnmem h1 h2
              exact ih _ _ hb.1 hb.2

theorem applyDefaults_logFor_bound (opts : List (String × Value)) (i : Nat) :
    ∀ (regVals : List ArgOptions) (processed : List Nat) (st : DispatchState),
    (i ∉ processed → logFor st.optLog i = []) →
    (logFor st.optLog i).length ≤ 1 →
    (logFor (applyDefaults opts regVals processed st).1.optLog i).length ≤ 1 := by
  intro regVals
  induction regVals with
  | nil => intro processed st _ h2; exact h2
  | cons o rest ih =>
    intro processed st h1 h2
    simp only [applyDefaults]
    split
    · split
      · exact ih _ _ h1 h2
      · next hnmem =>
        have hb := logFor_push_bound st.optLog processed o.id i
          (Value.str (o.defaultValue.getD "")) hnmem h1 h2
        exact ih _ _ hb.1 hb.2
    · exact ih _ _ h1 h2

-- ### Dispatcher lemmas: untouched absent options, default pass

theorem mem_mapValues {m : List (String × ArgOptions)} {o : ArgOptions}
    (h : o ∈ mapValues m) : ∃ k, (k, o) ∈ m := by
  rcases List.mem_map.mp h with ⟨⟨k, v⟩, he, heq⟩
  cases heq
  exact ⟨k, he⟩

theorem processOptions_absent (reg : List (String × ArgOptions))
    (tokOpts : List (String × Value)) (o : ArgOptions) (k0 : String)
    (hwf : RegWF reg) (hik : IdKeys reg) (hmem : (k0, o) ∈ reg)
    (hb : bothAbsent o tokOpts) :
    ∀ (entries : List (String × Value)) (processed : List Nat) (st : DispatchState),
    (∀ e ∈ entries, hasKey tokOpts e.1 = true) →
    o.id ∉ processed →
    o.id ∉ (processOptions reg entries processed st).2.1 ∧
    logFor (processOptions reg entries processed st).1.optLog o.id = logFor st.optLog o.id ∧
    (o.id ∉ st.validated → o.id ∉ (processOptions reg entries processed st).1.validated) := by
  intro entries
  induction entries with
  | nil =>
    intro processed st _ hnp
    exact ⟨hnp, rfl, fun h => h⟩
  | cons e rest ih =>
    intro processed st hkeys hnp
    obtain ⟨key, value⟩ := e
    have hkey : hasKey tokOpts key = true := hkeys (key, value) (List.mem_cons_self _ _)
    have hkeys' : ∀ e ∈ rest, hasKey tokOpts e.1 = true :=
      fun e he => hkeys e (List.mem_cons_of_mem _ he)
    simp only [processOptions]
    rcases hg : mapGet reg key with _ | o'
    · exact ih processed _ hkeys' hnp
    · have hne : o'.id ≠ o.id := by
        intro heq
        have hkmem : (key, o') ∈ reg := mem_of_mapGet hg
        have hsame := hik _ hkmem _ hmem heq
        rcases hwf _ hkmem with ⟨hts, hks⟩ | ⟨htl, hkl⟩
        · rw [hsame.1] at hts hks
          have hcontra : (truthy o.short && hasKey tokOpts (o.short.getD "")) = true := by
            rw [hts, hks, hkey]
            rfl
          rw [hb.1] at hcontra
          cases hcontra
        · rw [hsame.2.1] at htl hkl
          have hcontra : (truthy o.long && hasKey tokOpts (o.long.getD "")) = true := by
            rw [htl, hkl, hkey]
            rfl
          rw [hb.2] at hcontra
          cases hcontra
      have hnp' : o.id ∉ processed ++ [o'.id] := by
        intro hh
        rcases List.mem_append.mp hh with hh | hh
        · exact hnp hh
        · exact hne (List.mem_singleton.mp hh).symm
      simp only []
      split
      · exact ih processed st hkeys' hnp
      · next hnm =>
        rcases hv : o'.validators with _ | vs
        · obtain ⟨c1, c2, c3⟩ := ih (processed ++ [o'.id])
            { st with optLog := st.optLog ++ [(o'.id, value)] } hkeys' hnp'
          refine ⟨c1, ?_, ?_⟩
          · rw [c2]
            simp [logFor_append, logFor_single_ne hne]
          · intro hnv
            exact c3 hnv
        · rcases hr : runValidators (coerceValue value) vs with e | errs
          · simp only [hr]
            exact ⟨hnp', by simp, by simp⟩
          · simp only [hr]
            split
            · refine ⟨hnp', by simp, ?_⟩
              intro hnv hh
              rcases List.mem_append.mp hh with hh | hh
              · exact hnv hh
              · exact hne (List.mem_singleton.mp hh).symm
            · obtain ⟨c1, c2, c3⟩ := ih (processed ++ [o'.id])
                { st with validated := st.validated ++ [o'.id],
                          optLog := st.optLog ++ [(o'.id, value)] } hkeys' hnp'
              refine ⟨c1, ?_, ?_⟩
              · rw [c2]
                simp [logFor_append, logFor_single_ne hne]
              · intro hnv
                apply c3
                intro hh
                rcases List.mem_append.mp hh with hh | hh
                · exact hnv hh
                · exact hne (List.mem_singleton.mp hh).symm

theorem applyDefaults_processed (opts : List (String × Value)) (i : Nat) :
    ∀ (regVals : List ArgOptions) (processed : List Nat) (st : DispatchState),
    i ∈ processed →
    logFor (applyDefaults opts regVals processed st).1.optLog i = logFor st.optLog i := by
  intro regVals
  induction regVals with
  | nil => intro processed st _; rfl
  | cons o rest ih =>
    intro processed st hmem
    simp only [applyDefaults]
    split
    · split
      · exact ih _ _ hmem
      · next hnm =>
        have hne : o.id ≠ i := fun he => hnm (he ▸ hmem)
        rw [ih _ _ (List.mem_append_left _ hmem)]
        simp [logFor_append, logFor_single_ne hne]
    · exact ih _ _ hmem

theorem applyDefaults_fires (opts : List (String × Value)) (o : ArgOptions) (d : String)
    (hd : o.defaultValue = some d) (hb : bothAbsent o opts) :
    ∀ (regVals : List ArgOptions),
    (∀ h ∈ regVals, h.id = o.id → h.short = o.short ∧ h.long = o.long ∧
      h.defaultValue = o.defaultValue) →
    o ∈ regVals →
    ∀ (processed : List Nat) (st : DispatchState),
    o.id ∉ processed →
    logFor (applyDefaults opts regVals processed st).1.optLog o.id =
      logFor st.optLog o.id ++ [(o.id, Value.str d)] := by
  intro regVals
  induction regVals with
  | nil => intro _ ho; simp at ho
  | cons h0 rest ih =>
    intro hids ho processed st hnp
    have hids' : ∀ h ∈ rest, h.id = o.id → h.short = o.short ∧ h.long = o.long ∧
        h.defaultValue = o.defaultValue :=
      fun h hh => hids h (List.mem_cons_of_mem _ hh)
    simp only [applyDefaults]
    by_cases hid : h0.id = o.id
    · obtain ⟨hs, hl, hdv⟩ := hids h0 (List.mem_cons_self _ _) hid
      have hcond : (!(truthy h0.short && hasKey opts (h0.short.getD "")) &&
          !(truthy h0.long && hasKey opts (h0.long.getD "")) &&
          h0.defaultValue.isSome) = true := by
        rw [hs, hl, hdv, hb.1, hb.2, hd]
        rfl
      rw [if_pos hcond, if_neg (show ¬(h0.id ∈ processed) from fun hh => hnp (hid ▸ hh))]
      rw [applyDefaults_processed opts o.id rest _ _
        (List.mem_append_right _ (by simp [hid]))]
      rw [hid, hdv, hd]
      simp [logFor_append, logFor_single_self]
    · have ho' : o ∈ rest := by
        rcases List.mem_cons.mp ho with rfl | hh
        · exact absurd rfl hid
        · exact hh
      have hnp' : o.id ∉ processed ++ [h0.id] := by
        intro hh
        rcases List.mem_append.mp hh with hh | hh
        · exact hnp hh
        · exact hid (List.mem_singleton.mp hh).symm
      split
      · split
        · exact ih hids' ho' _ _ hnp
        · rw [ih hids' ho' _ _ hnp']
          simp [logFor_append, logFor_single_ne hid]
      · exact ih hids' ho' _ _ hnp

theorem applyDefaults_present (opts : List (String × Value)) (o : ArgOptions)
    (hp : (truthy o.short && hasKey opts (o.short.getD "")) = true ∨
          (truthy o.long && hasKey opts (o.long.getD "")) = true) :
    ∀ (regVals : List ArgOptions),
    (∀ h ∈ regVals, h.id = o.id → h.short = o.short ∧ h.long = o.long ∧
      h.defaultValue = o.defaultValue) →
    ∀ (processed : List Nat) (st : DispatchState),
    logFor (applyDefaults opts regVals processed st).1.optLog o.id =
      logFor st.optLog o.id := by
  intro regVals
  induction regVals with
  | nil => intro _ processed st; rfl
  | cons h0 rest ih =>
    intro hids processed st
    have hids' : ∀ h ∈ rest, h.id = o.id → h.short = o.short ∧ h.long = o.long ∧
        h.defaultValue = o.defaultValue :=
      fun h hh => hids h (List.mem_cons_of_mem _ hh)
    simp only [applyDefaults]
    by_cases hid : h0.id = o.id
    · obtain ⟨hs, hl, hdv⟩ := hids h0 (List.mem_cons_self _ _) hid
      have hcond : (!(truthy h0.short && hasKey opts (h0.short.getD "")) &&
          !(truthy h0.long && hasKey opts (h0.long.getD "")) &&
          h0.defaultValue.isSome) = false := by
        rcases hp with hp | hp
        · rw [hs, hp]
          rfl
        · rw [hl, hp]
          simp
      rw [if_neg (by rw [hcond]; simp)]
      exact ih hids' _ _
    · split
      · split
        · exact ih hids' _ _
        · rw [ih hids' _ _]
          simp [logFor_append, logFor_single_ne hid]
      · exact ih hids' _ _

-- ### Helper: all-falsy validators with empty messages collect nothing

theorem runValidators_all_empty (input : ValidatorInput) :
    ∀ (vs : List Validator),
    (∀ v ∈ vs, v.message = "" ∧ v.validate input = Except.ok false) →
    runValidators input vs = Except.ok [] := by
  intro vs
  induction vs with
  | nil => intro _; rfl
  | cons v vrest ih =>
    intro hval
    obtain ⟨hm, hr⟩ := hval v (List.mem_cons_self _ _)
    have ih' := ih (fun w hw => hval w (List.mem_cons_of_mem _ hw))
    simp [runValidators, hr, ih', hm]

-- ### Claim theorems

/-- C8: tokenizing `['deploy', '--force', '-abc', '--d', '--timeout=120']`
(the post-strip argument list) yields commands `['deploy']`, options
`{force: true, a: true, b: true, c: true, timeout: '120'}` in insertion
order, and errors `['--d']`. -/
theorem c8_tokenize_round_trip :
    Parser.parse ["deploy", "--force", "-abc", "--d", "--timeout=120"] =
      { options := [("force", Value.bool true), ("a", Value.bool true),
                    ("b", Value.bool true), ("c", Value.bool true),
                    ("timeout", Value.str "120")],
        commands := ["deploy"],
        errors := ["--d"] } := by
  decide

/-- C6: for every input argument list, every stored option value is
exactly one of boolean `true`, a single string, or an ordered sequence
of two or more strings; a zero-length (or singleton) sequence is never
stored. -/
theorem c6_value_shapes (args : List String) :
    ∀ e ∈ (Parser.parse args).options, goodValue e.2 := by
  intro e he
  apply parseRest_good (args.dropWhile Parser.nonDash) 0 [] [] (by simp) e
  simpa [Parser.parse] using he

theorem c6_value_shapes_witness :
    ("kk", Value.strs ["v1", "v2"]) ∈ (Parser.parse ["--kk", "v1", "v2"]).options ∧
    goodValue (Value.strs ["v1", "v2"]) :=
  ⟨by decide,
   c6_value_shapes ["--kk", "v1", "v2"] ("kk", Value.strs ["v1", "v2"]) (by decide)⟩

/-- C7: each malformed option token among `--`, `-`, `---x`, and any
dash-prefixed token whose key portion fails the name grammar is, at its
processing step, recorded verbatim as a single entry of `errors` while
the options record is left untouched (it introduces no key), and it
always ends up in the `errors` of the tokenize result. -/
theorem c7_malformed_tokens (t : String) (hm : claimMalformed t = true) :
    (∀ (rest : List String) (opts : List (String × Value)) (errs : List String),
      Parser.parseRest (t :: rest) 0 opts errs =
        Parser.parseRest rest 0 opts (errs ++ [t])) ∧
    (∀ args : List String, t ∈ args → t ∈ (Parser.parse args).errors) := by
  have hmd := claimMalformed_malformedDash hm
  constructor
  · exact parseRest_malformed_step hmd
  · intro args ht
    have hnd : Parser.nonDash t = false := nonDash_of_malformed hmd
    have ht' : t ∈ args.dropWhile Parser.nonDash :=
      mem_dropWhile_of_neg _ args t hnd ht
    have hh := parseRest_malformed_mem hmd (args.dropWhile Parser.nonDash) 0 [] []
      (by simp) ht'
    simpa [Parser.parse] using hh

theorem c7_malformed_tokens_witness :
    claimMalformed "--" = true ∧ "--" ∈ (Parser.parse ["deploy", "--"]).errors :=
  ⟨by decide, (c7_malformed_tokens "--" (by decide)).2 ["deploy", "--"] (by decide)⟩

/-- C10: for every tokenize result whose commands sequence is empty,
dispatch appends the empty string as the (first) entry of
`unexpectedErrors` - step 2 appends exactly `['']` - and invokes no
command action, regardless of which commands are registered. -/
theorem c10_empty_commands (p : Program) (tok : ParserResult) (h : tok.commands = []) :
    (stepTwo p tok).unexpectedErrors = [""] ∧
    (p.parse tok).state.unexpectedErrors.head? = some "" ∧
    (p.parse tok).state.cmdLog = [] := by
  obtain ⟨hu, hc⟩ := stepTwo_of_nil p tok h
  obtain ⟨ex2, hex⟩ := processOptions_unexpected_mono p.options tok.options [] (stepTwo p tok)
  have hcmd := processOptions_cmdLog p.options tok.options [] (stepTwo p tok)
  rw [hu] at hex
  rw [hc] at hcmd
  rcases hpo : processOptions p.options tok.options [] (stepTwo p tok) with ⟨st, processed, ex⟩
  rw [hpo] at hex hcmd
  refine ⟨hu, ?_, ?_⟩
  · cases ex with
    | threw e =>
      simp only [Program.parse, hpo]
      rw [hex]
      rfl
    | done =>
      simp only [Program.parse, hpo]
      rw [(applyDefaults_preserves tok.options (mapValues p.options) processed st).2.1, hex]
      rfl
    | broke =>
      simp only [Program.parse, hpo]
      rw [(applyDefaults_preserves tok.options (mapValues p.options) processed st).2.1, hex]
      rfl
  · cases ex with
    | threw e =>
      simp only [Program.parse, hpo]
      exact hcmd
    | done =>
      simp only [Program.parse, hpo]
      rw [(applyDefaults_preserves tok.options (mapValues p.options) processed st).1]
      exact hcmd
    | broke =>
      simp only [Program.parse, hpo]
      rw [(applyDefaults_preserves tok.options (mapValues p.options) processed st).1]
      exact hcmd

theorem c10_empty_commands_witness :
    tokC10.commands = [] ∧
    (progC1.parse tokC10).state.unexpectedErrors.head? = some "" ∧
    (progC1.parse tokC10).state.cmdLog = [] :=
  ⟨rfl, (c10_empty_commands progC1 tokC10 rfl).2.1,
   (c10_empty_commands progC1 tokC10 rfl).2.2⟩

/-- C9: registering a declaration never raises; it rebinds exactly its
own truthy keys to the new declaration and leaves every other key of the
registry - in particular an earlier declaration's other key - unchanged. -/
theorem c9_registration_collision :
    (∀ (reg : List (String × ArgOptions)) (y : ArgOptions) (s : String),
      truthy y.short = true → y.short.getD "" = s →
      mapGet (Program.option reg y) s = some y) ∧
    (∀ (reg : List (String × ArgOptions)) (y : ArgOptions) (s : String),
      truthy y.long = true → y.long.getD "" = s →
      mapGet (Program.option reg y) s = some y) ∧
    (∀ (reg : List (String × ArgOptions)) (y : ArgOptions) (k : String),
      ¬(truthy y.short = true ∧ y.short.getD "" = k) →
      ¬(truthy y.long = true ∧ y.long.getD "" = k) →
      mapGet (Program.option reg y) k = mapGet reg k) := by
  refine ⟨?_, ?_, ?_⟩
  · intro reg y s hts hks
    subst hks
    simp only [Program.option]
    rw [if_pos hts]
    by_cases htl : truthy y.long = true
    · rw [if_pos htl]
      by_cases hls : y.long.getD "" = y.short.getD ""
      · rw [hls, mapGet_mapSet_self]
      · rw [mapGet_mapSet_ne _ _ _ _ (fun hh => hls hh.symm), mapGet_mapSet_self]
    · rw [if_neg htl, mapGet_mapSet_self]
  · intro reg y s htl hls
    subst hls
    simp only [Program.option]
    rw [if_pos htl, mapGet_mapSet_self]
  · intro reg y k hns hnl
    simp only [Program.option]
    by_cases hts : truthy y.short = true
    · rw [if_pos hts]
      have hkss : y.short.getD "" ≠ k := fun hh => hns ⟨hts, hh⟩
      by_cases htl : truthy y.long = true
      · rw [if_pos htl]
        have hkl : y.long.getD "" ≠ k := fun hh => hnl ⟨htl, hh⟩
        rw [mapGet_mapSet_ne _ _ _ _ (fun hh => hkl hh.symm),
          mapGet_mapSet_ne _ _ _ _ (fun hh => hkss hh.symm)]
      · rw [if_neg htl, mapGet_mapSet_ne _ _ _ _ (fun hh => hkss hh.symm)]
    · rw [if_neg hts]
      by_cases htl : truthy y.long = true
      · rw [if_pos htl]
        have hkl : y.long.getD "" ≠ k := fun hh => hnl ⟨htl, hh⟩
        rw [mapGet_mapSet_ne _ _ _ _ (fun hh => hkl hh.symm)]
      · rw [if_neg htl]

theorem c9_registration_collision_witness :
    mapGet (Program.option regC9 optY9) "s" = some optY9 ∧
    mapGet (Program.option regC9 optY9) "l" = mapGet regC9 "l" ∧
    mapGet regC9 "l" = some optX9 :=
  ⟨c9_registration_collision.1 regC9 optY9 "s" (by decide) rfl,
   c9_registration_collision.2.2 regC9 optY9 "l" (by decide) (by decide),
   rfl⟩

/-- C1 counterexample: option `x` has a validator whose evaluate is
falsy with an empty message, yet its action IS invoked, the later
supplied option `y` is also processed, no validation failure is
recorded, and dispatch returns `false` - refuting the claim that the
option is treated as failed independently of message text. -/
theorem c1_counterexample :
    (progC1.parse tokC1).state.optLog = [(0, Value.bool true), (1, Value.str "v")] ∧
    (progC1.parse tokC1).state.validationErrors = [] ∧
    (progC1.parse tokC1).result = Except.ok false := by
  refine ⟨?_, ?_, ?_⟩ <;> rfl

/-- C1 (amended): a falsy evaluate with an empty message contributes no
failure message, and an option all of whose validators evaluate falsy
with empty messages is treated as passing: its action is invoked with
the value and processing continues with the remaining options. -/
theorem c1_empty_message_passes (reg : List (String × ArgOptions)) (key : String)
    (value : Value) (o : ArgOptions) (vs : List Validator)
    (rest : List (String × Value)) (processed : List Nat) (st : DispatchState)
    (hg : mapGet reg key = some o) (hnp : o.id ∉ processed)
    (hv : o.validators = some vs)
    (hval : ∀ v ∈ vs, v.message = "" ∧ v.validate (coerceValue value) = Except.ok false) :
    processOptions reg ((key, value) :: rest) processed st =
      processOptions reg rest (processed ++ [o.id])
        { st with validated := st.validated ++ [o.id],
                  optLog := st.optLog ++ [(o.id, value)] } := by
  have hrun : runValidators (coerceValue value) vs = Except.ok [] :=
    runValidators_all_empty (coerceValue value) vs hval
  simp only [processOptions, hg]
  rw [if_neg hnp]
  simp only [hv, hrun]
  rw [if_neg (by simp)]

theorem c1_empty_message_passes_witness :
    processOptions progC1.options [("x", Value.bool true)] [] {} =
      processOptions progC1.options [] [optX.id]
        { validated := [optX.id], optLog := [(optX.id, Value.bool true)] } :=
  c1_empty_message_passes progC1.options "x" (Value.bool true) optX [valFalsyEmpty]
    [] [] {} rfl (by simp) rfl
    (by
      intro v hv
      rw [List.mem_singleton] at hv
      subst hv
      exact ⟨rfl, rfl⟩)

/-- C2 counterexample: option `z` has a validator whose evaluate
rejects; dispatch does NOT complete normally - the rejection surfaces as
the result - and no failed validation is recorded for the option,
refuting the claim. -/
theorem c2_counterexample :
    (progC2.parse tokC2).result = Except.error "boom" ∧
    (progC2.parse tokC2).state.validationErrors = [] ∧
    (progC2.parse tokC2).state.optLog = [] := by
  refine ⟨?_, ?_, ?_⟩ <;> rfl

/-- C2 (amended): a validator rejection escapes the option loop
uncaught and propagates out of the dispatch call as the error itself;
nothing is recorded in `validationErrors` for the option, its action is
not invoked, and no later option or default is processed. -/
theorem c2_rejection_propagates :
    (∀ (reg : List (String × ArgOptions)) (key : String) (value : Value)
       (o : ArgOptions) (vs : List Validator) (e : String)
       (rest : List (String × Value)) (processed : List Nat) (st : DispatchState),
      mapGet reg key = some o → o.id ∉ processed → o.validators = some vs →
      runValidators (coerceValue value) vs = Except.error e →
      processOptions reg ((key, value) :: rest) processed st =
        (st, processed ++ [o.id], LoopExit.threw e)) ∧
    (∀ (p : Program) (tok : ParserResult) (st : DispatchState)
       (processed : List Nat) (e : String),
      processOptions p.options tok.options [] (stepTwo p tok) =
        (st, processed, LoopExit.threw e) →
      (p.parse tok).result = Except.error e ∧ (p.parse tok).state = st) := by
  constructor
  · intro reg key value o vs e rest processed st hg hnp hv hr
    simp only [processOptions, hg]
    rw [if_neg hnp]
    simp only [hv, hr]
  · intro p tok st processed e hpo
    simp only [Program.parse, hpo]
    constructor <;> simp

theorem c2_rejection_propagates_witness :
    processOptions progC2.options [("z", Value.str "w")] [] (stepTwo progC2 tokC2) =
      (stepTwo progC2 tokC2, [optZ.id], LoopExit.threw "boom") ∧
    (progC2.parse tokC2).result = Except.error "boom" := by
  have h1 := c2_rejection_propagates.1 progC2.options "z" (Value.str "w") optZ
    [valReject] "boom" [] [] (stepTwo progC2 tokC2) rfl (by simp) rfl rfl
  exact ⟨h1, (c2_rejection_propagates.2 progC2 tokC2 _ _ "boom" h1).1⟩

/-- C4: a declaration registered under both a short and a long name,
with both spellings present as keys of the tokenize result, has its
action invoked at most once in a dispatch cycle. -/
theorem c4_action_at_most_once (p : Program) (tok : ParserResult) (o : ArgOptions)
    (s l : String) (_hs : o.short = some s) (_hl : o.long = some l)
    (_hgs : mapGet p.options s = some o) (_hgl : mapGet p.options l = some o)
    (_hks : hasKey tok.options s = true) (_hkl : hasKey tok.options l = true) :
    (logFor (p.parse tok).state.optLog o.id).length ≤ 1 := by
  have hinit1 : o.id ∉ ([] : List Nat) → logFor (stepTwo p tok).optLog o.id = [] := by
    intro _
    rw [stepTwo_optLog]
    rfl
  have hinit2 : (logFor (stepTwo p tok).optLog o.id).length ≤ 1 := by
    rw [stepTwo_optLog]
    simp [logFor]
  have hb := processOptions_logFor_bound p.options o.id tok.options [] (stepTwo p tok)
    hinit1 hinit2
  rcases hpo : processOptions p.options tok.options [] (stepTwo p tok) with ⟨st, processed, ex⟩
  rw [hpo] at hb
  cases ex with
  | threw e =>
    simp only [Program.parse, hpo]
    exact hb.2
  | done =>
    simp only [Program.parse, hpo]
    exact applyDefaults_logFor_bound tok.options o.id (mapValues p.options) processed st
      hb.1 hb.2
  | broke =>
    simp only [Program.parse, hpo]
    exact applyDefaults_logFor_bound tok.options o.id (mapValues p.options) processed st
      hb.1 hb.2

theorem c4_action_at_most_once_witness :
    (logFor (progC4.parse tokC4).state.optLog optT.id).length ≤ 1 :=
  c4_action_at_most_once progC4 tokC4 optT "t" "timeout" rfl rfl rfl rfl rfl rfl

/-- C5: a registered option with a declared default value whose truthy
keys are both absent from the tokenize result (key presence, not value
truthiness) has its action invoked exactly once with the default value
and no validators run on it, in every dispatch cycle that completes;
and when either key is present, the default-value pass never fires for
that option. -/
theorem c5_default_values :
    (∀ (p : Program) (tok : ParserResult) (o : ArgOptions) (d : String) (b : Bool),
      RegWF p.options → IdKeys p.options → o ∈ mapValues p.options →
      o.defaultValue = some d → bothAbsent o tok.options →
      (p.parse tok).result = Except.ok b →
      logFor (p.parse tok).state.optLog o.id = [(o.id, Value.str d)] ∧
      o.id ∉ (p.parse tok).state.validated) ∧
    (∀ (opts : List (String × Value)) (regVals : List ArgOptions)
       (processed : List Nat) (st : DispatchState) (o : ArgOptions),
      (∀ h ∈ regVals, h.id = o.id → h.short = o.short ∧ h.long = o.long ∧
        h.defaultValue = o.defaultValue) →
      ((truthy o.short && hasKey opts (o.short.getD "")) = true ∨
        (truthy o.long && hasKey opts (o.long.getD "")) = true) →
      logFor (applyDefaults opts regVals processed st).1.optLog o.id =
        logFor st.optLog o.id) := by
  constructor
  · intro p tok o d b hwf hik hmem hd hb hres
    obtain ⟨k0, hk0⟩ := mem_mapValues hmem
    have hkeys : ∀ e ∈ tok.options, hasKey tok.options e.1 = true :=
      fun e he => hasKey_of_mem he
    have habs := processOptions_absent p.options tok.options o k0 hwf hik hk0 hb
      tok.options [] (stepTwo p tok) hkeys (by simp)
    have hids : ∀ h ∈ mapValues p.options, h.id = o.id →
        h.short = o.short ∧ h.long = o.long ∧ h.defaultValue = o.defaultValue := by
      intro h hh hid
      obtain ⟨kh, hkh⟩ := mem_mapValues hh
      exact hik _ hkh _ hk0 hid
    rcases hpo : processOptions p.options tok.options [] (stepTwo p tok)
      with ⟨st, processed, ex⟩
    rw [hpo] at habs
    obtain ⟨hnp2, hlog, hval⟩ := habs
    have hlog0 : logFor st.optLog o.id = [] := by
      rw [hlog, stepTwo_optLog]
      rfl
    have hval0 : o.id ∉ st.validated := by
      apply hval
      rw [stepTwo_validated]
      simp
    cases ex with
    | threw e =>
      simp only [Program.parse, hpo] at hres
      simp at hres
    | done =>
      simp only [Program.parse, hpo]
      constructor
      · rw [applyDefaults_fires tok.options o d hd hb (mapValues p.options) hids hmem
          processed st hnp2, hlog0]
        rfl
      · rw [(applyDefaults_preserves tok.options (mapValues p.options) processed st).2.2.1]
        exact hval0
    | broke =>
      simp only [Program.parse, hpo]
      constructor
      · rw [applyDefaults_fires tok.options o d hd hb (mapValues p.options) hids hmem
          processed st hnp2, hlog0]
        rfl
      · rw [(applyDefaults_preserves tok.options (mapValues p.options) processed st).2.2.1]
        exact hval0
  · intro opts regVals processed st o hids hp
    exact applyDefaults_present opts o hp regVals hids processed st

theorem c5_default_values_witness :
    (logFor (progC3.parse tokC3).state.optLog optB.id = [(optB.id, Value.str "5")] ∧
      optB.id ∉ (progC3.parse tokC3).state.validated) ∧
    logFor (applyDefaults tokC3.options [optF, optB, optB] [] {}).1.optLog optF.id =
      logFor ({} : DispatchState).optLog optF.id :=
  ⟨c5_default_values.1 progC3 tokC3 optB "5" true (by unfold RegWF; decide)
      (by unfold IdKeys; decide)
      (show optB ∈ [optF, optB, optB] from
        List.mem_cons_of_mem _ (List.mem_cons_self _ _))
      rfl (by unfold bothAbsent; decide) rfl,
   c5_default_values.2 tokC3.options [optF, optB, optB] [] {} optF (by decide) (by decide)⟩

/-- C3: when a supplied option fails validation the loop stops at that
option - the failure messages are joined under its key and nothing
after it is processed, so no later supplied option's action runs - yet
in a completing cycle every registered option with a default value and
both keys absent still has its action invoked with the default in the
step-4 pass. -/
theorem c3_hard_stop_with_defaults :
    (∀ (reg : List (String × ArgOptions)) (kA : String) (vA : Value) (oA : ArgOptions)
       (vs : List Validator) (errs : List String) (post : List (String × Value))
       (processed : List Nat) (st : DispatchState),
      mapGet reg kA = some oA → oA.id ∉ processed → oA.validators = some vs →
      runValidators (coerceValue vA) vs = Except.ok errs → errs ≠ [] →
      processOptions reg ((kA, vA) :: post) processed st =
        ({ st with
            validationErrors := mapSet st.validationErrors kA
              (String.intercalate "\n" errs),
            validated := st.validated ++ [oA.id] },
         processed ++ [oA.id], LoopExit.broke)) ∧
    (∀ (p : Program) (tok : ParserResult) (o : ArgOptions) (d : String) (b : Bool),
      RegWF p.options → IdKeys p.options → o ∈ mapValues p.options →
      o.defaultValue = some d → bothAbsent o tok.options →
      (p.parse tok).result = Except.ok b →
      (o.id, Value.str d) ∈ (p.parse tok).state.optLog) := by
  constructor
  · intro reg kA vA oA vs errs post processed st hg hnp hv hr hne
    simp only [processOptions, hg]
    rw [if_neg hnp]
    simp only [hv, hr]
    rw [if_pos (List.length_pos.mpr hne)]
  · intro p tok o d b hwf hik hmem hd hb hres
    obtain ⟨k0, hk0⟩ := mem_mapValues hmem
    have hkeys : ∀ e ∈ tok.options, hasKey tok.options e.1 = true :=
      fun e he => hasKey_of_mem he
    have habs := processOptions_absent p.options tok.options o k0 hwf hik hk0 hb
      tok.options [] (stepTwo p tok) hkeys (by simp)
    have hids : ∀ h ∈ mapValues p.options, h.id = o.id →
        h.short = o.short ∧ h.long = o.long ∧ h.defaultValue = o.defaultValue := by
      intro h hh hid
      obtain ⟨kh, hkh⟩ := mem_mapValues hh
      exact hik _ hkh _ hk0 hid
    rcases hpo : processOptions p.options tok.options [] (stepTwo p tok)
      with ⟨st, processed, ex⟩
    rw [hpo] at habs
    obtain ⟨hnp2, hlog, hval⟩ := habs
    have hlog0 : logFor st.optLog o.id = [] := by
      rw [hlog, stepTwo_optLog]
      rfl
    cases ex with
    | threw e =>
      simp only [Program.parse, hpo] at hres
      simp at hres
    | done =>
      simp only [Program.parse, hpo]
      have hfin : logFor (applyDefaults tok.options (mapValues p.options)
          processed st).1.optLog o.id = [(o.id, Value.str d)] := by
        rw [applyDefaults_fires tok.options o d hd hb (mapValues p.options) hids hmem
          processed st hnp2, hlog0]
        rfl
      have hmemf : (o.id, Value.str d) ∈ logFor (applyDefaults tok.options
          (mapValues p.options) processed st).1.optLog o.id := by
        rw [hfin]
        exact List.mem_singleton.mpr rfl
      exact List.mem_of_mem_filter hmemf
    | broke =>
      simp only [Program.parse, hpo]
      have hfin : logFor (applyDefaults tok.options (mapValues p.options)
          processed st).1.optLog o.id = [(o.id, Value.str d)] := by
        rw [applyDefaults_fires tok.options o d hd hb (mapValues p.options) hids hmem
          processed st hnp2, hlog0]
        rfl
      have hmemf : (o.id, Value.str d) ∈ logFor (applyDefaults tok.options
          (mapValues p.options) processed st).1.optLog o.id := by
        rw [hfin]
        exact List.mem_singleton.mpr rfl
      exact List.mem_of_mem_filter hmemf

theorem c3_hard_stop_with_defaults_witness :
    processOptions progC3.options [("f", Value.str "oops")] [] {} =
      ({ ({} : DispatchState) with
          validationErrors := mapSet ({} : DispatchState).validationErrors "f"
            (String.intercalate "\n" ["bad"]),
          validated := ({} : DispatchState).validated ++ [optF.id] },
        [] ++ [optF.id], LoopExit.broke) ∧
    (optB.id, Value.str "5") ∈ (progC3.parse tokC3).state.optLog :=
  ⟨c3_hard_stop_with_defaults.1 progC3.options "f" (Value.str "oops") optF
      [valFailing] ["bad"] [] [] {} rfl (by simp) rfl rfl (by simp),
   c3_hard_stop_with_defaults.2 progC3 tokC3 optB "5" true (by unfold RegWF; decide)
      (by unfold IdKeys; decide)
      (show optB ∈ [optF, optB, optB] from
        List.mem_cons_of_mem _ (List.mem_cons_self _ _))
      rfl (by unfold bothAbsent; decide) rfl⟩
